import Mathlib

/-
Verification of crates/mun_compiler/afl/generate_in_files.py.

The script scans snapshot files for a field of the form
  expression: "<snippet>"
whose quoted content begins with one of the keywords pub, fn or struct,
extracts the matched region, removes every occurrence of the thirteen
character label string, unescapes literal backslash-n pairs into real
newline characters, trims the final character, and writes each non-empty
snippet to a file named by its zero-based position in an output folder.

Strings are modelled as lists of characters.  Python str.replace is
modelled by pyReplace (leftmost, non-overlapping).  The regular expression
  (expression: "(pub|fn|struct).*)
is modelled by its leftmost match: the least position whose suffix starts
with the label followed by one of the keywords; the greedy dot-star then
extends the match to the end of the line (a dot does not match a newline).
The filesystem is modelled as a map from paths to optional file contents;
the traversal of find_snaps is modelled by the ordered list of snapshot
file contents it yields.
-/

namespace GenerateInFiles

/-- The thirteen-character field label `expression: "` used by the script,
both inside the regular expression and in the first str.replace call. -/
def fieldLabel : List Char := "expression: \"".data

/-- Keyword alternatives of the regular expression group `(pub|fn|struct)`. -/
def kwPub : List Char := "pub".data

def kwFn : List Char := "fn".data

def kwStruct : List Char := "struct".data

/-- The two-character escape sequence backslash-n that the script unescapes. -/
def escNl : List Char := ['\\', 'n']

/-- Fuel-indexed worker for Python str.replace: scans left to right,
replacing non-overlapping occurrences of `old` by `new`.  The fuel only
serves to make the recursion structural; it is irrelevant once it is at
least the length of the scanned list. -/
def pyReplaceAux (old new : List Char) : Nat → List Char → List Char
  | 0, s => s
  | _ + 1, [] => []
  | fuel + 1, c :: rest =>
    if old ≠ [] ∧ old.isPrefixOf (c :: rest) = true then
      new ++ pyReplaceAux old new fuel ((c :: rest).drop old.length)
    else
      c :: pyReplaceAux old new fuel rest

/-- Python `s.replace(old, new)` for a non-empty `old`. -/
def pyReplace (old new s : List Char) : List Char :=
  pyReplaceAux old new s.length s

/-- The keyword test of the group `(pub|fn|struct)`: does the text begin
with one of the three keywords? -/
def kwCheck (s : List Char) : Bool :=
  kwPub.isPrefixOf s || kwFn.isPrefixOf s || kwStruct.isPrefixOf s

/-- Does the regular expression match starting at the head of `s`?  It does
exactly when `s` starts with the label immediately followed by one of the
keywords (the trailing dot-star always matches). -/
def matchesAt (s : List Char) : Bool :=
  fieldLabel.isPrefixOf s && kwCheck (s.drop fieldLabel.length)

/-- The suffix of the input at the leftmost position where the regular
expression matches, or none. -/
def findMatch : List Char → Option (List Char)
  | [] => none
  | c :: rest => if matchesAt (c :: rest) then some (c :: rest) else findMatch rest

/-- `result[0][0]`: the full text of the first match.  The greedy `.*`
extends the match from the start position to the end of the line, since the
dot matches every character except a newline. -/
def matchText (data : List Char) : Option (List Char) :=
  (findMatch data).map (List.takeWhile (fun c => c != '\n'))

/-- The two replace calls applied to the matched text: remove every
occurrence of the field label, then turn every literal backslash-n pair
into a real newline character. -/
def cleanText (m : List Char) : List Char :=
  pyReplace escNl ['\n'] (pyReplace fieldLabel [] m)

/-- extract_snippet: first match of the regular expression, both replace
calls, then the final-character trim `[0:-1]`.  Returns none when the
regular expression does not match, like the Python fall-through return. -/
def extract_snippet (data : List Char) : Option (List Char) :=
  (matchText data).map (fun m => (cleanText m).dropLast)

/-- The character removed by the `[0:-1]` trim: the last character of the
matched text after the two replace calls. -/
def trimmedChar (data : List Char) : Option Char :=
  (matchText data).bind (fun m => (cleanText m).getLast?)

/-- The snippet list accumulated by generate_files: one entry per snapshot
file whose extraction passed the truthiness guard `if snippet:` (neither
None nor the empty string). -/
def snippets (inputs : List (List Char)) : List (List Char) :=
  inputs.filterMap (fun d =>
    (extract_snippet d).bind (fun s => if s.isEmpty then none else some s))

/-- Python enumerate, starting at a given index. -/
def enumFromIdx : Nat → List α → List (Nat × α)
  | _, [] => []
  | i, a :: as => (i, a) :: enumFromIdx (i + 1) as

/-- A filesystem path, as a string. -/
abbrev FilePath := List Char

/-- A filesystem: a map from paths to optional file contents. -/
abbrev FS := FilePath → Option (List Char)

/-- Fuel-indexed decimal printer for `"{}".format(index)`; the fuel is
irrelevant once the quotient chain is exhausted, which `natStr` ensures. -/
def natStrAux : Nat → Nat → List Char
  | 0, n => [Nat.digitChar (n % 10)]
  | fuel + 1, n =>
    if n < 10 then [Nat.digitChar n]
    else natStrAux fuel (n / 10) ++ [Nat.digitChar (n % 10)]

/-- Decimal representation of an index, as produced by `"{}".format(index)`. -/
def natStr (n : Nat) : List Char := natStrAux n n

/-- The output path `"{}/{}".format(out_folder, index)`. -/
def outPath (out_folder : FilePath) (index : Nat) : FilePath :=
  out_folder ++ '/' :: natStr index

/-- The ordered list of writes performed by the output loop of
generate_files: the i-th snippet goes to the path `out_folder/i`. -/
def writes (inputs : List (List Char)) (out_folder : FilePath) :
    List (FilePath × List Char) :=
  (enumFromIdx 0 (snippets inputs)).map (fun p => (outPath out_folder p.1, p.2))

/-- Opening a path in mode "w" and writing contents: the previous contents
of that path, if any, are fully replaced. -/
def writeFile (fs : FS) (p : FilePath) (c : List Char) : FS :=
  fun q => if q = p then some c else fs q

/-- Perform a list of writes in order. -/
def applyWrites (fs : FS) (ws : List (FilePath × List Char)) : FS :=
  ws.foldl (fun a w => writeFile a w.1 w.2) fs

/-- generate_files: extract all snippets from the snapshot-file contents
(in traversal order), then write each one to its numbered output file. -/
def generate_files (inputs : List (List Char)) (out_folder : FilePath)
    (fs : FS) : FS :=
  applyWrites fs (writes inputs out_folder)

/-- Does a snapshot file yield a non-empty extraction? -/
def nonEmptyExtract (d : List Char) : Bool :=
  match extract_snippet d with
  | some s => !s.isEmpty
  | none => false

/-- The last write to a given path in a list of writes, if any (used to
characterise the result of performing a write list in order). -/
def lastWrite : List (FilePath × List Char) → FilePath → Option (List Char)
  | [], _ => none
  | w :: ws, q =>
    match lastWrite ws q with
    | some c => some c
    | none => if w.1 = q then some w.2 else none

/-! ### Basic facts about pyReplace -/

theorem pyReplaceAux_nil (old new : List Char) (f : Nat) :
    pyReplaceAux old new f [] = [] := by
  cases f <;> rfl

theorem pyReplaceAux_irrel (old new : List Char) :
    ∀ f₁ f₂ s, s.length ≤ f₁ → s.length ≤ f₂ →
      pyReplaceAux old new f₁ s = pyReplaceAux old new f₂ s := by
  intro f₁
  induction f₁ with
  | zero =>
    intro f₂ s h₁ _
    have hs : s = [] := List.length_eq_zero.mp (Nat.le_zero.mp h₁)
    subst hs
    rw [pyReplaceAux_nil, pyReplaceAux_nil]
  | succ f ih =>
    intro f₂ s h₁ h₂
    cases s with
    | nil => rw [pyReplaceAux_nil, pyReplaceAux_nil]
    | cons c rest =>
      cases f₂ with
      | zero => simp at h₂
      | succ g =>
        by_cases h : old ≠ [] ∧ old.isPrefixOf (c :: rest) = true
        · have hlen : ((c :: rest).drop old.length).length ≤ rest.length := by
            have : 1 ≤ old.length := by
              cases old with
              | nil => exact absurd rfl h.1
              | cons _ _ => simp
            simp only [List.length_drop, List.length_cons]
            omega
          simp only [pyReplaceAux, if_pos h]
          rw [ih g _ (Nat.le_trans hlen (Nat.lt_succ_iff.mp h₁))
            (Nat.le_trans hlen (Nat.lt_succ_iff.mp h₂))]
        · simp only [pyReplaceAux, if_neg h]
          rw [ih g rest (Nat.lt_succ_iff.mp h₁) (Nat.lt_succ_iff.mp h₂)]

theorem pyReplace_nil (old new : List Char) : pyReplace old new [] = [] := rfl

theorem pyReplace_pos (old new : List Char) (c : Char) (rest : List Char)
    (h₁ : old ≠ []) (h₂ : old.isPrefixOf (c :: rest) = true) :
    pyReplace old new (c :: rest) =
      new ++ pyReplace old new ((c :: rest).drop old.length) := by
  have hlen : ((c :: rest).drop old.length).length ≤ rest.length := by
    have : 1 ≤ old.length := by
      cases old with
      | nil => exact absurd rfl h₁
      | cons _ _ => simp
    simp only [List.length_drop, List.length_cons]
    omega
  show pyReplaceAux old new (rest.length + 1) (c :: rest) = _
  simp only [pyReplaceAux, if_pos (And.intro h₁ h₂)]
  rw [pyReplaceAux_irrel old new rest.length ((c :: rest).drop old.length).length
    _ hlen (Nat.le_refl _)]
  rfl

theorem pyReplace_neg (old new : List Char) (c : Char) (rest : List Char)
    (h : ¬(old ≠ [] ∧ old.isPrefixOf (c :: rest) = true)) :
    pyReplace old new (c :: rest) = c :: pyReplace old new rest := by
  show pyReplaceAux old new (rest.length + 1) (c :: rest) = _
  simp only [pyReplaceAux, if_neg h]
  rfl

theorem isPrefixOf_cons_ne (o c : Char) (ot rest : List Char)
    (h : (o == c) = false) : (o :: ot).isPrefixOf (c :: rest) = false := by
  simp only [List.isPrefixOf, h, Bool.false_and]

theorem pyReplace_step_ne (o c : Char) (ot new rest : List Char)
    (h : (o == c) = false) :
    pyReplace (o :: ot) new (c :: rest) = c :: pyReplace (o :: ot) new rest := by
  apply pyReplace_neg
  intro hc
  rw [isPrefixOf_cons_ne o c ot rest h] at hc
  exact Bool.false_ne_true hc.2

theorem isPrefixOf_self_append (l t : List Char) :
    l.isPrefixOf (l ++ t) = true := by
  rw [List.isPrefixOf_iff_prefix]
  exact List.prefix_append l t

theorem pyReplace_label_prepend (old new t : List Char) (h : old ≠ []) :
    pyReplace old new (old ++ t) = new ++ pyReplace old new t := by
  cases old with
  | nil => exact absurd rfl h
  | cons o ot =>
    have hpre : (o :: ot).isPrefixOf ((o :: ot) ++ t) = true :=
      isPrefixOf_self_append (o :: ot) t
    rw [List.cons_append] at hpre
    rw [List.cons_append, pyReplace_pos (o :: ot) new o (ot ++ t) (by simp) hpre,
      ← List.cons_append, List.drop_left]

theorem pyReplace_id_of_no_occ (old new : List Char) :
    ∀ u, (∀ p, old.isPrefixOf (u.drop p) = false) → pyReplace old new u = u := by
  intro u
  induction u with
  | nil => intro _; rfl
  | cons c rest ih =>
    intro h
    have h0 : old.isPrefixOf (c :: rest) = false := h 0
    rw [pyReplace_neg old new c rest (by
      intro hc
      rw [h0] at hc
      exact Bool.false_ne_true hc.2)]
    rw [ih (fun p => h (p + 1))]

theorem mem_pyReplace (old new : List Char) :
    ∀ f s a, a ∈ pyReplaceAux old new f s → a ∈ s ∨ a ∈ new := by
  intro f
  induction f with
  | zero => intro s a h; exact Or.inl h
  | succ g ih =>
    intro s a h
    cases s with
    | nil => simp [pyReplaceAux_nil] at h
    | cons c rest =>
      by_cases hc : old ≠ [] ∧ old.isPrefixOf (c :: rest) = true
      · simp only [pyReplaceAux, if_pos hc, List.mem_append] at h
        rcases h with h | h
        · exact Or.inr h
        · rcases ih _ a h with h | h
          · exact Or.inl (List.drop_subset _ _ h)
          · exact Or.inr h
      · simp only [pyReplaceAux, if_neg hc, List.mem_cons] at h
        rcases h with h | h
        · exact Or.inl (h ▸ List.mem_cons_self c rest)
        · rcases ih _ a h with h | h
          · exact Or.inl (List.mem_cons_of_mem c h)
          · exact Or.inr h

theorem escNl_isPrefixOf_cons₂ (a b : Char) (t : List Char) :
    escNl.isPrefixOf (a :: b :: t) = (('\\' == a) && ('n' == b)) := by
  show (('\\' == a) && (('n' == b) && List.isPrefixOf [] t)) = _
  rw [show List.isPrefixOf ([] : List Char) t = true from
    List.isPrefixOf_iff_prefix.mpr (List.nil_prefix), Bool.and_true]

theorem pyReplace_escNl_singleton (new : List Char) (a : Char) :
    pyReplace escNl new [a] = [a] := by
  rw [pyReplace_neg escNl new a [] (by
    intro hc
    have : escNl.isPrefixOf [a] = (('\\' == a) && false) := rfl
    rw [this, Bool.and_false] at hc
    exact Bool.false_ne_true hc.2)]
  rw [pyReplace_nil]

theorem pyReplace_escNl_quote (new : List Char) :
    pyReplace escNl new ['"'] = ['"'] := pyReplace_escNl_singleton new '"'

theorem pyReplace_escNl_pair_quote (new : List Char) (a : Char) :
    pyReplace escNl new [a, '"'] = [a, '"'] := by
  rw [pyReplace_neg escNl new a ['"'] (by
    intro hc
    rw [escNl_isPrefixOf_cons₂ a '"' []] at hc
    have : ('n' == '"') = false := by decide
    rw [this, Bool.and_false] at hc
    exact Bool.false_ne_true hc.2)]
  rw [pyReplace_escNl_quote]

theorem pyReplace_concat_quote (new : List Char) :
    ∀ s, pyReplace escNl new (s ++ ['"']) = pyReplace escNl new s ++ ['"'] := by
  have main : ∀ n s, List.length s ≤ n →
      pyReplace escNl new (s ++ ['"']) = pyReplace escNl new s ++ ['"'] := by
    intro n
    induction n with
    | zero =>
      intro s h
      have hs : s = [] := List.length_eq_zero.mp (Nat.le_zero.mp h)
      subst hs
      exact pyReplace_escNl_quote new
    | succ n ih =>
      intro s h
      cases s with
      | nil => exact pyReplace_escNl_quote new
      | cons a rest =>
        cases rest with
        | nil =>
          have h₁ : ([a] : List Char) ++ ['"'] = [a, '"'] := rfl
          rw [h₁, pyReplace_escNl_pair_quote, pyReplace_escNl_singleton]
          rfl
        | cons b rest₂ =>
          have hcons : (a :: b :: rest₂) ++ ['"'] = a :: b :: (rest₂ ++ ['"']) := rfl
          rw [hcons]
          cases hP : (('\\' == a) && ('n' == b)) with
          | true =>
            have hp₁ : escNl.isPrefixOf (a :: b :: (rest₂ ++ ['"'])) = true := by
              rw [escNl_isPrefixOf_cons₂]; exact hP
            have hp₂ : escNl.isPrefixOf (a :: b :: rest₂) = true := by
              rw [escNl_isPrefixOf_cons₂]; exact hP
            rw [pyReplace_pos escNl new a (b :: (rest₂ ++ ['"'])) (by decide) hp₁,
              pyReplace_pos escNl new a (b :: rest₂) (by decide) hp₂]
            have hdrop₁ : (a :: b :: (rest₂ ++ ['"'])).drop escNl.length = rest₂ ++ ['"'] := rfl
            have hdrop₂ : (a :: b :: rest₂).drop escNl.length = rest₂ := rfl
            rw [hdrop₁, hdrop₂, ih rest₂ (by simp at h; omega), List.append_assoc]
          | false =>
            have hp₁ : ¬(escNl ≠ [] ∧ escNl.isPrefixOf (a :: b :: (rest₂ ++ ['"'])) = true) := by
              intro hc
              rw [escNl_isPrefixOf_cons₂, hP] at hc
              exact Bool.false_ne_true hc.2
            have hp₂ : ¬(escNl ≠ [] ∧ escNl.isPrefixOf (a :: b :: rest₂) = true) := by
              intro hc
              rw [escNl_isPrefixOf_cons₂, hP] at hc
              exact Bool.false_ne_true hc.2
            rw [pyReplace_neg escNl new a (b :: (rest₂ ++ ['"'])) hp₁,
              pyReplace_neg escNl new a (b :: rest₂) hp₂]
            have hc₂ : (b :: rest₂) ++ ['"'] = b :: (rest₂ ++ ['"']) := rfl
            rw [← hc₂, ih (b :: rest₂) (by simp at h ⊢; omega), List.cons_append]
  intro s
  exact main s.length s (Nat.le_refl _)

/-! ### Facts about the leftmost match -/

theorem nil_isPrefixOf (t : List Char) : List.isPrefixOf [] t = true :=
  List.isPrefixOf_iff_prefix.mpr List.nil_prefix

theorem matchesAt_nil : matchesAt [] = false := by decide

theorem isPrefixOf_append_of (l s t : List Char) (h : l.isPrefixOf s = true) :
    l.isPrefixOf (s ++ t) = true := by
  rw [List.isPrefixOf_iff_prefix] at h ⊢
  exact h.trans (List.prefix_append s t)

theorem isPrefixOf_ex (l s : List Char) (h : l.isPrefixOf s = true) :
    ∃ t, s = l ++ t := by
  rw [List.isPrefixOf_iff_prefix] at h
  obtain ⟨t, ht⟩ := h
  exact ⟨t, ht.symm⟩

theorem isPrefixOf_length_le (l s : List Char) (h : l.isPrefixOf s = true) :
    l.length ≤ s.length := by
  rw [List.isPrefixOf_iff_prefix] at h
  exact h.length_le

theorem kwCheck_append (s t : List Char) (h : kwCheck s = true) :
    kwCheck (s ++ t) = true := by
  simp only [kwCheck, Bool.or_eq_true] at h ⊢
  rcases h with (h | h) | h
  · exact Or.inl (Or.inl (isPrefixOf_append_of _ _ _ h))
  · exact Or.inl (Or.inr (isPrefixOf_append_of _ _ _ h))
  · exact Or.inr (isPrefixOf_append_of _ _ _ h)

theorem matchesAt_append_of (s t : List Char) (h : matchesAt s = true) :
    matchesAt (s ++ t) = true := by
  simp only [matchesAt, Bool.and_eq_true] at h ⊢
  obtain ⟨h₁, h₂⟩ := h
  refine ⟨isPrefixOf_append_of _ _ _ h₁, ?_⟩
  have hlen : fieldLabel.length ≤ s.length := isPrefixOf_length_le _ _ h₁
  rw [List.drop_append_of_le_length hlen]
  exact kwCheck_append _ _ h₂

theorem findMatch_eq_some_of :
    ∀ (n : Nat) (l : List Char), (∀ i < n, matchesAt (l.drop i) = false) →
      matchesAt (l.drop n) = true → findMatch l = some (l.drop n) := by
  intro n
  induction n with
  | zero =>
    intro l _ hn
    rw [List.drop_zero] at hn
    cases l with
    | nil => rw [matchesAt_nil] at hn; exact absurd hn (by simp)
    | cons c rest => simp only [findMatch, hn, if_pos, List.drop_zero]
  | succ m ih =>
    intro l hlt hn
    cases l with
    | nil =>
      rw [List.drop_nil, matchesAt_nil] at hn
      exact absurd hn (by simp)
    | cons c rest =>
      have h0 : matchesAt (c :: rest) = false := by
        have := hlt 0 (Nat.succ_pos m)
        rwa [List.drop_zero] at this
      simp only [findMatch, h0, Bool.false_eq_true, if_false]
      rw [List.drop_succ_cons] at hn ⊢
      exact ih rest (fun i hi => by
        have := hlt (i + 1) (Nat.succ_lt_succ hi)
        rwa [List.drop_succ_cons] at this) hn

theorem findMatch_eq_none_of (l : List Char)
    (h : ∀ i < l.length, matchesAt (l.drop i) = false) : findMatch l = none := by
  induction l with
  | nil => rfl
  | cons c rest ih =>
    have h0 : matchesAt (c :: rest) = false := by
      have := h 0 (by simp)
      rwa [List.drop_zero] at this
    simp only [findMatch, h0, Bool.false_eq_true, if_false]
    exact ih (fun i hi => by
      have := h (i + 1) (by simpa using Nat.succ_lt_succ hi)
      rwa [List.drop_succ_cons] at this)

theorem findMatch_some_matches (l u : List Char) (h : findMatch l = some u) :
    matchesAt u = true := by
  induction l with
  | nil => simp [findMatch] at h
  | cons c rest ih =>
    cases hm : matchesAt (c :: rest) with
    | true =>
      simp only [findMatch, hm, if_pos] at h
      exact (Option.some.inj h) ▸ hm
    | false =>
      simp only [findMatch, hm, Bool.false_eq_true, if_false] at h
      exact ih h

/-! ### Facts about takeWhile with the not-a-newline test -/

theorem takeWhile_append_all (p : Char → Bool) (x y : List Char)
    (h : ∀ a ∈ x, p a = true) :
    (x ++ y).takeWhile p = x ++ y.takeWhile p := by
  induction x with
  | nil => simp
  | cons c rest ih =>
    have hc : p c = true := h c (List.mem_cons_self c rest)
    rw [List.cons_append, List.takeWhile_cons, hc,
      ih (fun a ha => h a (List.mem_cons_of_mem c ha))]
    simp

theorem takeWhile_append_stop (x y : List Char) :
    (x ++ '\n' :: y).takeWhile (fun c => c != '\n') =
      x.takeWhile (fun c => c != '\n') := by
  induction x with
  | nil => simp [List.takeWhile_cons]
  | cons c rest ih =>
    cases hc : (c != '\n') with
    | true => simp [List.takeWhile_cons, hc, ih]
    | false => simp [List.takeWhile_cons, hc]

theorem takeWhile_eq_self_of (p : Char → Bool) (x : List Char)
    (h : ∀ a ∈ x, p a = true) : x.takeWhile p = x := by
  have := takeWhile_append_all p x [] h
  simpa using this

/-! ### The first match is blind to everything after its line -/

theorem isPrefixOf_nl_blind (x : List Char) :
    ∀ (l y z : List Char), '\n' ∉ l →
      l.isPrefixOf (x ++ '\n' :: y) = l.isPrefixOf (x ++ '\n' :: z) := by
  induction x with
  | nil =>
    intro l y z hl
    cases l with
    | nil => rw [nil_isPrefixOf, nil_isPrefixOf]
    | cons c lt =>
      have hc : (c == '\n') = false := by
        rw [beq_eq_false_iff_ne]
        intro he
        exact hl (he ▸ List.mem_cons_self c lt)
      show ((c == '\n') && lt.isPrefixOf y) = ((c == '\n') && lt.isPrefixOf z)
      rw [hc, Bool.false_and, Bool.false_and]
  | cons d rest ih =>
    intro l y z hl
    cases l with
    | nil => rw [nil_isPrefixOf, nil_isPrefixOf]
    | cons c lt =>
      show ((c == d) && lt.isPrefixOf (rest ++ '\n' :: y)) =
        ((c == d) && lt.isPrefixOf (rest ++ '\n' :: z))
      rw [ih lt y z (fun hm => hl (List.mem_cons_of_mem c hm))]

theorem isPrefixOf_nl_length (x : List Char) :
    ∀ (l y : List Char), l.isPrefixOf (x ++ '\n' :: y) = true → '\n' ∉ l →
      l.length ≤ x.length := by
  induction x with
  | nil =>
    intro l y h hl
    cases l with
    | nil => simp
    | cons c lt =>
      have h' : ((c == '\n') && lt.isPrefixOf y) = true := h
      simp only [Bool.and_eq_true] at h'
      have hc : c = '\n' := beq_iff_eq.mp h'.1
      exact absurd (hc ▸ List.mem_cons_self c lt) hl
  | cons d rest ih =>
    intro l y h hl
    cases l with
    | nil => simp
    | cons c lt =>
      have h' : ((c == d) && lt.isPrefixOf (rest ++ '\n' :: y)) = true := h
      simp only [Bool.and_eq_true] at h'
      have := ih lt y h'.2 (fun hm => hl (List.mem_cons_of_mem c hm))
      simpa using Nat.succ_le_succ this

theorem matchesAt_nl_blind (s y z : List Char) :
    matchesAt (s ++ '\n' :: y) = matchesAt (s ++ '\n' :: z) := by
  unfold matchesAt
  have hfl : '\n' ∉ fieldLabel := by decide
  rw [isPrefixOf_nl_blind s fieldLabel y z hfl]
  cases hb : fieldLabel.isPrefixOf (s ++ '\n' :: z) with
  | false => rw [Bool.false_and, Bool.false_and]
  | true =>
    rw [Bool.true_and, Bool.true_and]
    have hlen : fieldLabel.length ≤ s.length := isPrefixOf_nl_length s fieldLabel z hb hfl
    rw [List.drop_append_of_le_length hlen, List.drop_append_of_le_length hlen]
    unfold kwCheck
    rw [isPrefixOf_nl_blind _ kwPub y z (by decide),
      isPrefixOf_nl_blind _ kwFn y z (by decide),
      isPrefixOf_nl_blind _ kwStruct y z (by decide)]

theorem matchText_nl_blind (a : List Char) :
    ∀ y z, (∃ i, matchesAt (a.drop i) = true) →
      matchText (a ++ '\n' :: y) = matchText (a ++ '\n' :: z) := by
  induction a with
  | nil =>
    intro y z h
    obtain ⟨i, hi⟩ := h
    rw [List.drop_nil, matchesAt_nil] at hi
    exact absurd hi (by simp)
  | cons c rest ih =>
    intro y z h
    have hb := matchesAt_nl_blind (c :: rest) y z
    cases hm : matchesAt ((c :: rest) ++ '\n' :: y) with
    | true =>
      have hm₂ : matchesAt ((c :: rest) ++ '\n' :: z) = true := by rw [← hb]; exact hm
      have e₁ : (c :: rest) ++ '\n' :: y = c :: (rest ++ '\n' :: y) := rfl
      have e₂ : (c :: rest) ++ '\n' :: z = c :: (rest ++ '\n' :: z) := rfl
      rw [e₁] at hm
      rw [e₂] at hm₂
      unfold matchText
      rw [e₁, e₂]
      simp only [findMatch, hm, hm₂, if_pos, Option.map_some']
      rw [← e₁, ← e₂, takeWhile_append_stop (c :: rest) y,
        takeWhile_append_stop (c :: rest) z]
    | false =>
      have hm₂ : matchesAt ((c :: rest) ++ '\n' :: z) = false := by rw [← hb]; exact hm
      have e₁ : (c :: rest) ++ '\n' :: y = c :: (rest ++ '\n' :: y) := rfl
      have e₂ : (c :: rest) ++ '\n' :: z = c :: (rest ++ '\n' :: z) := rfl
      rw [e₁] at hm
      rw [e₂] at hm₂
      unfold matchText
      rw [e₁, e₂]
      simp only [findMatch, hm, hm₂, Bool.false_eq_true, if_false]
      refine ih y z ?_
      obtain ⟨i, hi⟩ := h
      cases i with
      | zero =>
        rw [List.drop_zero] at hi
        have : matchesAt ((c :: rest) ++ '\n' :: y) = true :=
          matchesAt_append_of _ _ hi
        rw [e₁] at this
        rw [this] at hm
        exact absurd hm (by simp)
      | succ j =>
        rw [List.drop_succ_cons] at hi
        exact ⟨j, hi⟩

/-! ### Extraction on a well-formed field -/

theorem label_no_occ_full (s : List Char)
    (honce : ∀ p < s.length + 1, fieldLabel.isPrefixOf ((s ++ ['"']).drop p) = false) :
    ∀ p, fieldLabel.isPrefixOf ((s ++ ['"']).drop p) = false := by
  intro p
  by_cases hp : p < s.length + 1
  · exact honce p hp
  · have hlen : (s ++ ['"']).length ≤ p := by
      simp only [List.length_append, List.length_cons, List.length_nil]
      omega
    rw [List.drop_eq_nil_of_le hlen]
    decide

theorem wf_core (pre s post : List Char)
    (hkw : kwCheck s = true)
    (hs : '\n' ∉ s)
    (hpost : post = [] ∨ post.head? = some '\n')
    (hfirst : ∀ i < pre.length,
      matchesAt ((pre ++ (fieldLabel ++ (s ++ ('"' :: post)))).drop i) = false)
    (honce : ∀ p < s.length + 1, fieldLabel.isPrefixOf ((s ++ ['"']).drop p) = false) :
    matchText (pre ++ (fieldLabel ++ (s ++ ('"' :: post)))) =
      some (fieldLabel ++ (s ++ ['"'])) ∧
    cleanText (fieldLabel ++ (s ++ ['"'])) = pyReplace escNl ['\n'] s ++ ['"'] := by
  constructor
  · have hdrop : (pre ++ (fieldLabel ++ (s ++ ('"' :: post)))).drop pre.length
        = fieldLabel ++ (s ++ ('"' :: post)) := List.drop_left pre _
    have hm : matchesAt (fieldLabel ++ (s ++ ('"' :: post))) = true := by
      simp only [matchesAt, Bool.and_eq_true]
      exact ⟨isPrefixOf_self_append fieldLabel _, by
        rw [List.drop_left fieldLabel _]
        exact kwCheck_append s _ hkw⟩
    have hfind : findMatch (pre ++ (fieldLabel ++ (s ++ ('"' :: post)))) =
        some (fieldLabel ++ (s ++ ('"' :: post))) := by
      have := findMatch_eq_some_of pre.length _ hfirst (by rw [hdrop]; exact hm)
      rwa [hdrop] at this
    unfold matchText
    rw [hfind, Option.map_some']
    congr 1
    rw [takeWhile_append_all _ fieldLabel _ (by decide)]
    congr 1
    have hsp : ∀ a ∈ s, (a != '\n') = true := by
      intro a ha
      have hne : a ≠ '\n' := fun he => hs (he ▸ ha)
      simp [hne]
    rw [takeWhile_append_all _ s _ hsp]
    congr 1
    rw [List.takeWhile_cons]
    have hq : ('"' != '\n') = true := by decide
    rw [hq]
    simp only [if_pos]
    rcases hpost with h | h
    · subst h
      simp
    · cases post with
      | nil => simp at h
      | cons p0 pt =>
        simp only [List.head?_cons, Option.some.injEq] at h
        subst h
        simp [List.takeWhile_cons]
  · unfold cleanText
    rw [pyReplace_label_prepend fieldLabel [] (s ++ ['"']) (by decide),
      List.nil_append,
      pyReplace_id_of_no_occ fieldLabel [] (s ++ ['"']) (label_no_occ_full s honce)]
    exact pyReplace_concat_quote ['\n'] s

/-! ### Non-emptiness of every extracted snippet -/

theorem fieldLabel_step_ne (c : Char) (new rest : List Char)
    (h : ('e' == c) = false) :
    pyReplace fieldLabel new (c :: rest) = c :: pyReplace fieldLabel new rest := by
  have hl : fieldLabel = 'e' :: "xpression: \"".data := rfl
  rw [hl]
  exact pyReplace_step_ne 'e' c _ new rest h

theorem escNl_step_ne (c : Char) (new rest : List Char)
    (h : ('\\' == c) = false) :
    pyReplace escNl new (c :: rest) = c :: pyReplace escNl new rest := by
  have hl : escNl = '\\' :: ['n'] := rfl
  rw [hl]
  exact pyReplace_step_ne '\\' c _ new rest h

theorem cleanText_length_ge_two (t : List Char) (hkw : kwCheck t = true) :
    2 ≤ (cleanText (fieldLabel ++ t)).length := by
  unfold cleanText
  rw [pyReplace_label_prepend fieldLabel [] t (by decide), List.nil_append]
  simp only [kwCheck, Bool.or_eq_true] at hkw
  rcases hkw with (h | h) | h
  · obtain ⟨t₃, rfl⟩ := isPrefixOf_ex kwPub t h
    have e : kwPub ++ t₃ = 'p' :: 'u' :: 'b' :: t₃ := rfl
    rw [e, fieldLabel_step_ne 'p' [] _ (by decide),
      fieldLabel_step_ne 'u' [] _ (by decide),
      fieldLabel_step_ne 'b' [] _ (by decide),
      escNl_step_ne 'p' ['\n'] _ (by decide),
      escNl_step_ne 'u' ['\n'] _ (by decide),
      escNl_step_ne 'b' ['\n'] _ (by decide)]
    simp only [List.length_cons]
    omega
  · obtain ⟨t₂, rfl⟩ := isPrefixOf_ex kwFn t h
    have e : kwFn ++ t₂ = 'f' :: 'n' :: t₂ := rfl
    rw [e, fieldLabel_step_ne 'f' [] _ (by decide),
      fieldLabel_step_ne 'n' [] _ (by decide),
      escNl_step_ne 'f' ['\n'] _ (by decide),
      escNl_step_ne 'n' ['\n'] _ (by decide)]
    simp only [List.length_cons]
    omega
  · obtain ⟨t₆, rfl⟩ := isPrefixOf_ex kwStruct t h
    have e : kwStruct ++ t₆ = 's' :: 't' :: 'r' :: 'u' :: 'c' :: 't' :: t₆ := rfl
    rw [e, fieldLabel_step_ne 's' [] _ (by decide),
      fieldLabel_step_ne 't' [] _ (by decide),
      fieldLabel_step_ne 'r' [] _ (by decide),
      fieldLabel_step_ne 'u' [] _ (by decide),
      fieldLabel_step_ne 'c' [] _ (by decide),
      fieldLabel_step_ne 't' [] _ (by decide),
      escNl_step_ne 's' ['\n'] _ (by decide),
      escNl_step_ne 't' ['\n'] _ (by decide),
      escNl_step_ne 'r' ['\n'] _ (by decide),
      escNl_step_ne 'u' ['\n'] _ (by decide),
      escNl_step_ne 'c' ['\n'] _ (by decide),
      escNl_step_ne 't' ['\n'] _ (by decide)]
    simp only [List.length_cons]
    omega

theorem matchText_shape (data m : List Char) (h : matchText data = some m) :
    ∃ t, m = fieldLabel ++ t ∧ kwCheck t = true := by
  unfold matchText at h
  cases hf : findMatch data with
  | none => rw [hf] at h; simp at h
  | some u =>
    rw [hf, Option.map_some'] at h
    have hu := findMatch_some_matches data u hf
    simp only [matchesAt, Bool.and_eq_true] at hu
    obtain ⟨h₁, h₂⟩ := hu
    obtain ⟨w, rfl⟩ := isPrefixOf_ex fieldLabel u h₁
    rw [List.drop_left fieldLabel w] at h₂
    have hm : m = fieldLabel ++ w.takeWhile (fun c => c != '\n') := by
      rw [← Option.some.inj h, takeWhile_append_all _ fieldLabel _ (by decide)]
    refine ⟨w.takeWhile (fun c => c != '\n'), hm, ?_⟩
    simp only [kwCheck, Bool.or_eq_true] at h₂ ⊢
    rcases h₂ with (hk | hk) | hk
    · obtain ⟨v, rfl⟩ := isPrefixOf_ex kwPub w hk
      rw [takeWhile_append_all _ kwPub _ (by decide)]
      exact Or.inl (Or.inl (isPrefixOf_self_append _ _))
    · obtain ⟨v, rfl⟩ := isPrefixOf_ex kwFn w hk
      rw [takeWhile_append_all _ kwFn _ (by decide)]
      exact Or.inl (Or.inr (isPrefixOf_self_append _ _))
    · obtain ⟨v, rfl⟩ := isPrefixOf_ex kwStruct w hk
      rw [takeWhile_append_all _ kwStruct _ (by decide)]
      exact Or.inr (isPrefixOf_self_append _ _)

theorem extract_snippet_some_shape (data r : List Char)
    (h : extract_snippet data = some r) :
    ∃ m, matchText data = some m ∧ r = (cleanText m).dropLast := by
  unfold extract_snippet at h
  cases hm : matchText data with
  | none => rw [hm] at h; simp at h
  | some m =>
    rw [hm, Option.map_some'] at h
    exact ⟨m, rfl, (Option.some.inj h).symm⟩

theorem extract_ne_nil (data r : List Char) (h : extract_snippet data = some r) :
    r ≠ [] := by
  obtain ⟨m, hm, hr⟩ := extract_snippet_some_shape data r h
  obtain ⟨t, rfl, hkw⟩ := matchText_shape data m hm
  have h2 := cleanText_length_ge_two t hkw
  subst hr
  intro hnil
  have hz : (cleanText (fieldLabel ++ t)).dropLast.length = 0 := by rw [hnil]; rfl
  rw [List.length_dropLast] at hz
  omega

/-! ### The snippet list and the output writes -/

theorem snippets_cons_some (d : List Char) (tl : List (List Char)) (r : List Char)
    (h : extract_snippet d = some r) :
    snippets (d :: tl) = r :: snippets tl := by
  have hr : r ≠ [] := extract_ne_nil d r h
  unfold snippets
  rw [List.filterMap_cons, h]
  cases r with
  | nil => exact absurd rfl hr
  | cons c rest => rfl

theorem snippets_cons_none (d : List Char) (tl : List (List Char))
    (h : extract_snippet d = none) :
    snippets (d :: tl) = snippets tl := by
  unfold snippets
  rw [List.filterMap_cons, h]
  rfl

theorem snippets_length (inputs : List (List Char)) :
    (snippets inputs).length = inputs.countP nonEmptyExtract := by
  induction inputs with
  | nil => rfl
  | cons d tl ih =>
    cases hd : extract_snippet d with
    | none =>
      rw [snippets_cons_none d tl hd, List.countP_cons]
      have hp : nonEmptyExtract d = false := by
        unfold nonEmptyExtract
        rw [hd]
      rw [hp, ih]
      simp
    | some r =>
      have hr : r ≠ [] := extract_ne_nil d r hd
      rw [snippets_cons_some d tl r hd, List.countP_cons]
      have hp : nonEmptyExtract d = true := by
        unfold nonEmptyExtract
        rw [hd]
        cases r with
        | nil => exact absurd rfl hr
        | cons c rest => rfl
      rw [hp]
      simp [List.length_cons, ih]

theorem enumFromIdx_length (l : List α) : ∀ i, (enumFromIdx i l).length = l.length := by
  induction l with
  | nil => intro i; rfl
  | cons a tl ih =>
    intro i
    show (enumFromIdx (i + 1) tl).length + 1 = tl.length + 1
    rw [ih (i + 1)]

theorem enumFromIdx_map_fst (l : List α) :
    ∀ i, (enumFromIdx i l).map Prod.fst = (List.range l.length).map (fun k => i + k) := by
  induction l with
  | nil => intro i; rfl
  | cons a tl ih =>
    intro i
    show i :: (enumFromIdx (i + 1) tl).map Prod.fst = _
    rw [ih (i + 1)]
    rw [show (a :: tl).length = tl.length + 1 from rfl, List.range_succ_eq_map,
      List.map_cons, List.map_map]
    have : ((fun k => i + k) ∘ fun k => k + 1) = fun k => (i + 1) + k := by
      funext k
      simp only [Function.comp_apply]
      omega
    rw [this]
    simp

theorem enumFromIdx_zero_map_fst (l : List α) :
    (enumFromIdx 0 l).map Prod.fst = List.range l.length := by
  rw [enumFromIdx_map_fst l 0]
  have : (fun k => 0 + k) = fun (k : Nat) => k := by
    funext k
    omega
  rw [this, List.map_id']

/-! ### The filesystem model -/

theorem applyWrites_eq_lastWrite (ws : List (FilePath × List Char)) :
    ∀ (fs : FS) (q : FilePath),
      applyWrites fs ws q = match lastWrite ws q with
        | some c => some c
        | none => fs q := by
  induction ws with
  | nil => intro fs q; rfl
  | cons w tl ih =>
    intro fs q
    show applyWrites (writeFile fs w.1 w.2) tl q = _
    rw [ih (writeFile fs w.1 w.2) q]
    cases hl : lastWrite tl q with
    | some c => simp only [lastWrite, hl]
    | none =>
      simp only [lastWrite, hl]
      by_cases hw : w.1 = q
      · rw [if_pos hw]
        unfold writeFile
        rw [if_pos hw.symm]
      · rw [if_neg hw]
        unfold writeFile
        rw [if_neg (fun he => hw he.symm)]

theorem applyWrites_idem (fs : FS) (ws : List (FilePath × List Char)) :
    applyWrites (applyWrites fs ws) ws = applyWrites fs ws := by
  funext q
  rw [applyWrites_eq_lastWrite, applyWrites_eq_lastWrite]
  cases hl : lastWrite ws q with
  | some c => rfl
  | none => rfl

theorem applyWrites_unchanged (ws : List (FilePath × List Char)) :
    ∀ (fs : FS) (p : FilePath), (∀ w ∈ ws, w.1 ≠ p) → applyWrites fs ws p = fs p := by
  induction ws with
  | nil => intro fs p _; rfl
  | cons w tl ih =>
    intro fs p h
    show applyWrites (writeFile fs w.1 w.2) tl p = fs p
    rw [ih _ p (fun x hx => h x (List.mem_cons_of_mem w hx))]
    have hw : w.1 ≠ p := h w (List.mem_cons_self w tl)
    unfold writeFile
    rw [if_neg (fun he => hw he.symm)]

/-! ### Output paths never look like snapshot files -/

theorem natStrAux_getLast :
    ∀ f n, (natStrAux f n).getLast? = some (Nat.digitChar (n % 10)) := by
  intro f
  induction f with
  | zero => intro n; rfl
  | succ g ih =>
    intro n
    by_cases h : n < 10
    · simp only [natStrAux, if_pos h]
      rw [Nat.mod_eq_of_lt h]
      rfl
    · simp only [natStrAux, if_neg h]
      exact List.getLast?_concat _

theorem natStr_getLast (n : Nat) :
    (natStr n).getLast? = some (Nat.digitChar (n % 10)) :=
  natStrAux_getLast n n

theorem natStr_ne_nil (n : Nat) : natStr n ≠ [] := by
  intro h
  have hg := natStr_getLast n
  rw [h] at hg
  simp at hg

theorem outPath_getLast (out : FilePath) (i : Nat) :
    (outPath out i).getLast? = some (Nat.digitChar (i % 10)) := by
  unfold outPath
  rw [List.getLast?_append_of_ne_nil out (by simp)]
  have e : ('/' :: natStr i : List Char) = ['/'] ++ natStr i := rfl
  rw [e, List.getLast?_append_of_ne_nil ['/'] (natStr_ne_nil i)]
  exact natStr_getLast i

theorem digitChar_ne_p : ∀ k < 10, Nat.digitChar k ≠ 'p' := by decide

theorem suffix_snap_getLast (p : FilePath) (h : (".snap".data : List Char) <:+ p) :
    p.getLast? = some 'p' := by
  obtain ⟨t, rfl⟩ := h
  rw [List.getLast?_append_of_ne_nil t (by decide)]
  decide

theorem outPath_ne_snap (out p : FilePath) (i : Nat)
    (h : (".snap".data : List Char) <:+ p) : outPath out i ≠ p := by
  intro he
  have h₁ := outPath_getLast out i
  rw [he, suffix_snap_getLast p h] at h₁
  exact digitChar_ne_p (i % 10) (Nat.mod_lt i (by omega)) (Option.some.inj h₁).symm

/-! ### Claim theorems -/

/-- C1: for snapshot contents containing a well-formed `expression: "…"`
field — the quoted content begins with pub, fn or struct, contains no real
newline, the closing quote ends its line, the field label occurs nowhere
else in the matched region, and no earlier position of the file matches the
pattern — extract_snippet returns exactly the quoted content with every
literal backslash-n escape turned into a real newline character and the
trailing quote removed. -/
theorem extract_snippet_wellformed (pre s post : List Char)
    (hkw : kwCheck s = true)
    (hs : '\n' ∉ s)
    (hpost : post = [] ∨ post.head? = some '\n')
    (hfirst : ∀ i < pre.length,
      matchesAt ((pre ++ (fieldLabel ++ (s ++ ('"' :: post)))).drop i) = false)
    (honce : ∀ p < s.length + 1,
      fieldLabel.isPrefixOf ((s ++ ['"']).drop p) = false) :
    extract_snippet (pre ++ (fieldLabel ++ (s ++ ('"' :: post)))) =
      some (pyReplace escNl ['\n'] s) := by
  obtain ⟨h₁, h₂⟩ := wf_core pre s post hkw hs hpost hfirst honce
  unfold extract_snippet
  rw [h₁, Option.map_some', h₂, List.dropLast_concat]

/-- Witness for C1 at the spec's example shape. -/
theorem extract_snippet_wellformed_witness :
    kwCheck "fn main()\\n 1".data = true ∧
    extract_snippet ("a\n".data ++
        (fieldLabel ++ ("fn main()\\n 1".data ++ ('"' :: "\nz".data)))) =
      some "fn main()\n 1".data := by
  constructor
  · decide
  · rw [extract_snippet_wellformed "a\n".data "fn main()\\n 1".data "\nz".data
      (by decide) (by decide) (Or.inr (by decide)) (by decide) (by decide)]
    decide

/-- C2: a run over any list of snapshot contents performs exactly one write
per input that yielded a non-empty extraction, and the written files are
named by the consecutive ordinals 0 … M-1 under the output folder, in
traversal order. -/
theorem generate_files_output_names_and_count
    (inputs : List (List Char)) (out_folder : FilePath) :
    (writes inputs out_folder).map Prod.fst =
      (List.range (inputs.countP nonEmptyExtract)).map (outPath out_folder) ∧
    (writes inputs out_folder).length = inputs.countP nonEmptyExtract := by
  constructor
  · unfold writes
    rw [List.map_map]
    have hcomp : (Prod.fst ∘ fun p : Nat × List Char => (outPath out_folder p.1, p.2))
        = (outPath out_folder) ∘ Prod.fst := rfl
    rw [hcomp, ← List.map_map, enumFromIdx_zero_map_fst, snippets_length]
  · unfold writes
    rw [List.length_map, enumFromIdx_length, snippets_length]

/-- C3 counterexample: on `expression: "pub` — a line with no closing
quote — a match is found, yet the character removed by the final trim is
`b`, not a closing double-quote. -/
theorem trimmedChar_not_always_quote_cex :
    matchText "expression: \"pub".data = some "expression: \"pub".data ∧
    trimmedChar "expression: \"pub".data = some 'b' ∧ 'b' ≠ '"' := by
  refine ⟨by decide, by decide, by decide⟩

/-- C3 (amended): the trim removes the last character of the matched line
after the replace calls, whatever it is; when the field is well-formed —
the closing quote ends the matched line and the label occurs only once in
the match — the removed character is exactly the closing double-quote. -/
theorem trimmedChar_quote_of_wellformed (pre s post : List Char)
    (hkw : kwCheck s = true)
    (hs : '\n' ∉ s)
    (hpost : post = [] ∨ post.head? = some '\n')
    (hfirst : ∀ i < pre.length,
      matchesAt ((pre ++ (fieldLabel ++ (s ++ ('"' :: post)))).drop i) = false)
    (honce : ∀ p < s.length + 1,
      fieldLabel.isPrefixOf ((s ++ ['"']).drop p) = false) :
    trimmedChar (pre ++ (fieldLabel ++ (s ++ ('"' :: post)))) = some '"' := by
  obtain ⟨h₁, h₂⟩ := wf_core pre s post hkw hs hpost hfirst honce
  unfold trimmedChar
  rw [h₁]
  show (cleanText (fieldLabel ++ ("".data ++ (s ++ ['"'])))).getLast? = some '"'
  rw [show ("".data ++ (s ++ ['"'])) = s ++ ['"'] from rfl, h₂]
  exact List.getLast?_concat _

/-- Witness for the amended C3. -/
theorem trimmedChar_quote_of_wellformed_witness :
    trimmedChar ([] ++ (fieldLabel ++ ("pub x".data ++ ('"' :: ([] : List Char))))) =
      some '"' :=
  trimmedChar_quote_of_wellformed [] "pub x".data []
    (by decide) (by decide) (Or.inl rfl) (by decide) (by decide)

/-- C4: when no position of the contents matches the pattern,
extract_snippet returns none, and such a file contributes no output: the
snippet list is the same with or without it. -/
theorem extract_snippet_no_match_none (data : List Char)
    (h : ∀ i < data.length, matchesAt (data.drop i) = false) :
    extract_snippet data = none ∧
    ∀ xs ys, snippets (xs ++ data :: ys) = snippets (xs ++ ys) := by
  have hnone : extract_snippet data = none := by
    unfold extract_snippet matchText
    rw [findMatch_eq_none_of data h]
    rfl
  refine ⟨hnone, fun xs ys => ?_⟩
  unfold snippets
  simp only [List.filterMap_append, List.filterMap_cons, hnone, Option.none_bind]

/-- Witness for C4. -/
theorem extract_snippet_no_match_none_witness :
    extract_snippet "nothing here".data = none ∧
    snippets (["expression: \"pub a\"".data] ++
        "nothing here".data :: ["expression: \"fn b\"".data]) =
      snippets (["expression: \"pub a\"".data] ++ ["expression: \"fn b\"".data]) := by
  have h := extract_snippet_no_match_none "nothing here".data (by decide)
  exact ⟨h.1, h.2 ["expression: \"pub a\"".data] ["expression: \"fn b\"".data]⟩

/-- C5: re-running generate_files with the same inputs and output folder on
the filesystem produced by a first run reproduces that filesystem exactly:
every output file is fully overwritten with identical contents, never
appended to. -/
theorem generate_files_idempotent (inputs : List (List Char))
    (out_folder : FilePath) (fs : FS) :
    generate_files inputs out_folder (generate_files inputs out_folder fs) =
      generate_files inputs out_folder fs := by
  unfold generate_files
  exact applyWrites_idem fs (writes inputs out_folder)

/-- C6: only the first match is used: when some position of the part of the
file before a newline matches the pattern, the extraction result does not
depend on anything after that newline — in particular not on later
matches. -/
theorem extract_snippet_first_match_only (a b₁ b₂ : List Char)
    (h : ∃ i, matchesAt (a.drop i) = true) :
    extract_snippet (a ++ '\n' :: b₁) = extract_snippet (a ++ '\n' :: b₂) := by
  unfold extract_snippet
  rw [matchText_nl_blind a b₁ b₂ h]

/-- Witness for C6: a later second match does not change the result. -/
theorem extract_snippet_first_match_only_witness :
    matchesAt (List.drop 0 "expression: \"pub a\"".data) = true ∧
    extract_snippet ("expression: \"pub a\"".data ++
        '\n' :: "expression: \"fn b\"".data) =
      extract_snippet ("expression: \"pub a\"".data ++ '\n' :: "no match".data) :=
  ⟨by decide, extract_snippet_first_match_only _ _ _ ⟨0, by decide⟩⟩

/-- C7: generate_files only ever writes the numbered files under the output
folder, so every path ending in the snapshot extension `.snap` — in
particular every snapshot file of the traversal — holds the same contents
after the run as before it. -/
theorem generate_files_preserves_snap_files (inputs : List (List Char))
    (out_folder : FilePath) (fs : FS) (p : FilePath)
    (h : (".snap".data : List Char) <:+ p) :
    generate_files inputs out_folder fs p = fs p := by
  unfold generate_files
  apply applyWrites_unchanged
  intro w hw
  unfold writes at hw
  obtain ⟨q, _, rfl⟩ := List.mem_map.mp hw
  exact outPath_ne_snap out_folder p q.1 h

/-- Witness for C7. -/
theorem generate_files_preserves_snap_files_witness :
    generate_files ["expression: \"pub w\"".data] "in".data
        (fun q => if q = "x.snap".data then some "s".data else none) "x.snap".data =
      (fun q => if q = "x.snap".data then some "s".data else none) "x.snap".data :=
  generate_files_preserves_snap_files _ _ _ _ ⟨"x".data, by decide⟩

/-- C8: a successful extraction is never the empty string, so the
truthiness guard `if snippet:` coincides with a None check: a file whose
contents matched is always kept, as the single-file snippet list shows. -/
theorem extract_snippet_some_ne_nil_kept (data r : List Char)
    (h : extract_snippet data = some r) :
    r ≠ [] ∧ snippets [data] = [r] := by
  have hr := extract_ne_nil data r h
  refine ⟨hr, ?_⟩
  rw [snippets_cons_some data [] r h]
  rfl

/-- Witness for C8: the shortest matching line still yields a non-empty
snippet that is kept. -/
theorem extract_snippet_some_ne_nil_kept_witness :
    ("pu".data ≠ ([] : List Char)) ∧
    snippets ["expression: \"pub".data] = ["pu".data] :=
  extract_snippet_some_ne_nil_kept "expression: \"pub".data "pu".data (by decide)

/-- C9: the first replace call removes every occurrence of the thirteen
character label from the matched text, not only the leading one: on a file
whose quoted content itself contains `expression: "`, the returned snippet
differs from that quoted content with just the leading label stripped. -/
theorem extract_snippet_removes_all_label_occurrences :
    extract_snippet "expression: \"pub expression: \"hi\"".data =
      some "pub hi".data ∧
    "pub hi".data ≠ "pub expression: \"hi".data := by
  refine ⟨by decide, by decide⟩

/-- C10: the matched region never spans a real newline — the matched text
sits on a single line — and every real newline of a returned snippet comes
from unescaping a literal backslash-n pair: the result is the trim of the
unescape of a newline-free string. -/
theorem extract_snippet_single_line (data m : List Char)
    (h : matchText data = some m) :
    '\n' ∉ m ∧
    ∃ q, '\n' ∉ q ∧
      extract_snippet data = some ((pyReplace escNl ['\n'] q).dropLast) := by
  have hnm : '\n' ∉ m := by
    unfold matchText at h
    cases hf : findMatch data with
    | none => rw [hf] at h; simp at h
    | some u =>
      rw [hf, Option.map_some'] at h
      intro hm
      rw [← Option.some.inj h] at hm
      have := List.mem_takeWhile_imp hm
      simp at this
  refine ⟨hnm, pyReplace fieldLabel [] m, fun hq => ?_, ?_⟩
  · rcases mem_pyReplace fieldLabel [] m.length m '\n' hq with hq' | hq'
    · exact hnm hq'
    · simp at hq'
  · unfold extract_snippet
    rw [h, Option.map_some']
    rfl

/-- Witness for C10. -/
theorem extract_snippet_single_line_witness :
    matchText "expression: \"struct".data = some "expression: \"struct".data ∧
    '\n' ∉ "expression: \"struct".data :=
  ⟨by decide, (extract_snippet_single_line "expression: \"struct".data
    "expression: \"struct".data (by decide)).1⟩

end GenerateInFiles
